import Mathlib

/-!
Verification of the bevy-yoetz decision core (advisor + derive-macro generated
suggestion operations) against its natural-language specification.

Shallow embedding notes:
* `f32` scores are modelled as `ℚ` (exact arithmetic on the finite values the
  algorithm compares; all concrete inputs used below are exactly representable
  in `f32`, so every counterexample transfers).
* A suggestion enum value is modelled generically: a variant tag (its index in
  the declaration order) together with the ordered list of its fields, each
  field carrying the role (`key` / `input` / `state`) its `#[yoetz(...)]`
  attribute assigns and its runtime value.  The macro-generated operations
  (`key`, `remove_components`, `add_components`, `update_into_components`)
  become functions over this representation, mirroring the token streams that
  `src/macros/src/suggestion/suggestion_enum.rs` emits.
* Bevy's deferred `EntityCommands` (`remove::<T>()` / `insert(...)`) on a
  single entity are modelled as in-order updates of the entity's set of
  attached behavior-record components (at most one component per Rust type,
  i.e. per variant tag — `insert` overwrites a component of the same type).
-/

namespace Yoetz

/-- Runtime field values (opaque payloads; only moved, cloned and compared). -/
abbrev Value := Nat

/-- Field roles, from `src/macros/src/suggestion/field.rs` (`FieldRole`). -/
inductive FieldRole where
  | key
  | input
  | state
deriving DecidableEq, Repr

/-- A suggestion enum value: variant tag plus its fields in declaration order,
each with the role its `#[yoetz(...)]` attribute assigns. -/
structure Suggestion where
  tag : Nat
  fields : List (FieldRole × Value)
deriving DecidableEq, Repr

/-- The generated key enum (`{Name}Key`): one variant per suggestion variant,
holding clones of the `key`-role fields only.  Modelled as tag + key values. -/
abbrev Identity := Nat × List Value

/-- Field-by-field projection used by the generated `key` method: keep exactly
the values of `key`-role fields, in declaration order
(`emit_key_method`, suggestion_enum.rs lines 123-177). -/
def keyFields : List (FieldRole × Value) → List Value
  | [] => []
  | (role, v) :: rest =>
    if role = FieldRole.key then v :: keyFields rest else keyFields rest

/-- The generated `YoetzSuggestion::key` method: tag-preserving projection of
a suggestion onto its `key`-role fields. -/
def Suggestion.key (s : Suggestion) : Identity :=
  (s.tag, keyFields s.fields)

/-- A behavior record ("strategy struct") attached to an entity: the component
type is determined by the variant tag, and it stores all of the variant's
field values in declaration order (`emit_strategy_code`, variant.rs). -/
structure Record where
  tag : Nat
  values : List Value
deriving DecidableEq, Repr

/-- `YoetzAdvisor<S>` (src/src/advisor.rs lines 55-63). -/
structure Advisor where
  consistency_bonus : ℚ
  active_key : Option Identity
  top_suggestion : Option (ℚ × Suggestion)
deriving DecidableEq, Repr

/-- `YoetzAdvisor::new` (advisor.rs lines 67-73). -/
def Advisor.new (consistency_bonus : ℚ) : Advisor :=
  { consistency_bonus, active_key := none, top_suggestion := none }

/-- The bonus computation inside `YoetzAdvisor::suggest` (advisor.rs lines
89-98): `consistency_bonus` iff `active_key` is `Some` and equals the
suggestion's key, else `0`. -/
def bonusFor (a : Advisor) (s : Suggestion) : ℚ :=
  if (a.active_key.map (fun key => key == s.key)).getD false then
    a.consistency_bonus
  else
    0

/-- `YoetzAdvisor::suggest` (advisor.rs lines 87-104).  When a suggestion is
pending, an incoming call is dropped iff `score + bonus < current_score`;
otherwise (also when nothing is pending) `top_suggestion` is set to the raw
`(score, suggestion)` pair. -/
def Advisor.suggest (a : Advisor) (score : ℚ) (s : Suggestion) : Advisor :=
  match a.top_suggestion with
  | some (current_score, _) =>
    if score + bonusFor a s < current_score then a
    else { a with top_suggestion := some (score, s) }
  | none => { a with top_suggestion := some (score, s) }

/-- All `suggest` calls of one Suggest phase, in call order. -/
def suggestAll (a : Advisor) (calls : List (ℚ × Suggestion)) : Advisor :=
  calls.foldl (fun acc c => acc.suggest c.1 c.2) a

/-- The generated `remove_components` method (`emit_remove_components_method`,
suggestion_enum.rs lines 179-209): `cmd.remove::<Strategy>()` for the strategy
struct of the key's variant — drop any attached record of that variant tag. -/
def remove_components (key : Identity) (recs : List Record) : List Record :=
  recs.filter (fun r => r.tag ≠ key.1)

/-- The record that `add_components` builds for a suggestion
(`cmd.insert(Strategy { all fields })`): all of the suggestion's field values,
key, input and state alike (`emit_add_components_method`, lines 211-252). -/
def Suggestion.record (s : Suggestion) : Record :=
  { tag := s.tag, values := s.fields.map Prod.snd }

/-- The generated `add_components` method: `insert` of the strategy struct.
Bevy's `insert` overwrites an existing component of the same type, so any
previous record of the same variant tag is replaced. -/
def add_components (s : Suggestion) (recs : List Record) : List Record :=
  recs.filter (fun r => r.tag ≠ s.tag) ++ [s.record]

/-- One field-assignment pass of the generated `update_into_components`
method: `strategy_component.f = f;` exactly for the `input`-role fields of the
suggestion's variant; `key`- and `state`-role positions keep the record's
value (`emit_update_into_components_method`, lines 254-317). -/
def patchValues (recordValues : List Value)
    (suggestionFields : List (FieldRole × Value)) : List Value :=
  List.zipWith
    (fun old f => if f.1 = FieldRole.input then f.2 else old)
    recordValues suggestionFields

/-- The generated `update_into_components` method: look up the omni-query slot
of the suggestion's variant (`components.strategyI`); if it is populated,
overwrite its `input`-role fields from the suggestion and return `Ok(())`
(here: the updated component set); if the slot is `None`, rebuild the
suggestion unchanged and return it as `Err`. -/
def update_into_components (s : Suggestion) (recs : List Record) :
    Except Suggestion (List Record) :=
  if recs.any (fun r => r.tag == s.tag) then
    Except.ok (recs.map (fun r =>
      if r.tag == s.tag then
        { tag := r.tag, values := patchValues r.values s.fields }
      else r))
  else
    Except.error s

/-- Per-entity state visible to the Decide pass: the advisor component and the
set of attached behavior-record components. -/
structure EntityState where
  advisor : Advisor
  records : List Record
deriving DecidableEq, Repr

/-- The Decide pass for one entity (`update_advisor`, advisor.rs lines
107-137): `top_suggestion.take()`; if empty, do nothing; else reconcile the
attached records with the winner and update `active_key`. -/
def update_advisor (st : EntityState) : EntityState :=
  match st.advisor.top_suggestion with
  | none => st
  | some (_, suggestion) =>
    -- `take()` clears the pending slot before anything else happens.
    let a := { st.advisor with top_suggestion := none }
    let key := suggestion.key
    match a.active_key with
    | some old_key =>
      if old_key = key then
        match update_into_components suggestion st.records with
        | Except.ok recs =>
          -- patch succeeded: `continue`, nothing else changes
          { advisor := a, records := recs }
        | Except.error suggestion =>
          -- warn, then fall through: remove old, add the returned suggestion;
          -- `active_key` is set to the `key` computed at the top of the loop
          { advisor := { a with active_key := some key },
            records :=
              add_components suggestion (remove_components old_key st.records) }
      else
        { advisor := { a with active_key := some key },
          records :=
            add_components suggestion (remove_components old_key st.records) }
    | none =>
      { advisor := { a with active_key := some key },
        records := add_components suggestion st.records }

/-- One full cycle: the Suggest phase's calls (in order), then Decide. -/
def runCycle (st : EntityState) (calls : List (ℚ × Suggestion)) : EntityState :=
  update_advisor { st with advisor := suggestAll st.advisor calls }

/-- A sequence of cycles. -/
def runCycles (st : EntityState) (cycles : List (List (ℚ × Suggestion))) :
    EntityState :=
  cycles.foldl runCycle st

/-- The single-record invariant claimed by the spec: at most one behavior
record is attached; its tag matches `active_key`'s tag when set; none is
attached while `active_key` is unset. -/
def SingleRecord (st : EntityState) : Prop :=
  st.records.length ≤ 1 ∧
  (st.advisor.active_key = none → st.records = []) ∧
  (∀ k, st.advisor.active_key = some k → ∀ r ∈ st.records, r.tag = k.1)

/-! ### The schema compiler's validation (bevy_yoetz_macros)

The derive macro's fallible paths, embedded from `src/macros/src`:
attribute arguments (`util.rs`, `AttrArg`), per-field role configuration
(`field.rs`, `FieldConfig`), enum-level configuration
(`suggestion_enum.rs` / `generated_type.rs`), and the orchestration in
`suggestion/mod.rs` (`impl_suggestion`).  Token/identifier payloads are
modelled as strings; the inner arguments of a nested attribute are modelled
one level deep, which is as deep as the macro ever inspects them
(`derive(...)` contents are parsed as paths, not as further `AttrArg`s). -/

/-- An argument nested inside a `#[yoetz(name(...))]` attribute
(name plus syntactic form, cf. `AttrArg` in util.rs). -/
inductive InnerArg where
  | flag (name : String)
  | keyValue (name : String)
  | subArg (name : String)
  | notArg (name : String)
deriving DecidableEq, Repr

/-- A top-level argument of a `#[yoetz(...)]` attribute (cf. `AttrArg`). -/
inductive ArgAst where
  | flag (name : String)
  | keyValue (name : String)
  | subArg (name : String) (args : List InnerArg)
  | notArg (name : String)
deriving DecidableEq, Repr

def InnerArg.name : InnerArg → String
  | .flag n => n
  | .keyValue n => n
  | .subArg n => n
  | .notArg n => n

def ArgAst.name : ArgAst → String
  | .flag n => n
  | .keyValue n => n
  | .subArg n _ => n
  | .notArg n => n

/-- The errors the macro can abort with (payload messages elided). -/
inductive MacroError where
  | roleGivenTwice
  | incorrectType
  | unknownName
  | missingRole
  | tupleUnsupported
deriving DecidableEq, Repr

/-- A field of a suggestion variant: the flattened argument list of its
`#[yoetz(...)]` attributes, in source order (non-`yoetz` attributes are
skipped by `FieldConfig::new_for` and so are not modelled). -/
structure FieldAst where
  args : List ArgAst
deriving DecidableEq, Repr

/-- The shape of a variant's fields (named / tuple / unit). -/
inductive VariantFieldsAst where
  | named (fields : List FieldAst)
  | unnamed (fields : List FieldAst)
  | unit
deriving DecidableEq, Repr

structure VariantAst where
  fields : VariantFieldsAst
deriving DecidableEq, Repr

/-- The macro input: the enum's `#[yoetz(...)]` attribute arguments
(flattened, in order) and its variants. -/
structure EnumAst where
  attrArgs : List ArgAst
  variants : List VariantAst
deriving DecidableEq, Repr

/-- `collect::<Result<Vec<_>, _>>()` over an iterator of fallible items:
stops at the first error (the `?`-style short-circuit used throughout
`mod.rs` and `variant.rs`). -/
def collectExcept (g : α → Except ε β) : List α → Except ε (List β)
  | [] => Except.ok []
  | x :: rest =>
    match g x with
    | Except.ok y =>
      match collectExcept g rest with
      | Except.ok ys => Except.ok (y :: ys)
      | Except.error e => Except.error e
    | Except.error e => Except.error e

/-- Whether an `Except` computation aborted. -/
def exceptFailed : Except ε α → Bool
  | Except.error _ => true
  | Except.ok _ => false

/-- `"key" | "input" | "state"` name dispatch in `FieldConfig::apply_meta`. -/
def roleOfName (n : String) : Option FieldRole :=
  if n = "key" then some FieldRole.key
  else if n = "input" then some FieldRole.input
  else if n = "state" then some FieldRole.state
  else none

/-- The role name the macro accepts for a given role. -/
def roleNameStr : FieldRole → String
  | FieldRole.key => "key"
  | FieldRole.input => "input"
  | FieldRole.state => "state"

/-- `FieldConfig::apply_meta` (field.rs lines 17-38): a role name must come
as a bare flag and may be given only once; any other name is unknown. -/
def fieldApplyMeta (cfg : Option FieldRole) (arg : ArgAst) :
    Except MacroError (Option FieldRole) :=
  match roleOfName arg.name with
  | some role =>
    match arg with
    | ArgAst.flag _ =>
      if cfg.isSome then Except.error MacroError.roleGivenTwice
      else Except.ok (some role)
    | _ => Except.error MacroError.incorrectType
  | none => Except.error MacroError.unknownName

/-- The attribute-folding loop of `FieldConfig::new_for`. -/
def fieldConfigFold (cfg : Option FieldRole) :
    List ArgAst → Except MacroError (Option FieldRole)
  | [] => Except.ok cfg
  | a :: rest =>
    match fieldApplyMeta cfg a with
    | Except.ok cfg' => fieldConfigFold cfg' rest
    | Except.error e => Except.error e

/-- `FieldConfig::new_for` (field.rs lines 41-54): process all `yoetz`
attribute arguments, then reject a field that ended up with no role. -/
def fieldConfigNewFor (f : FieldAst) : Except MacroError FieldRole :=
  match fieldConfigFold none f.args with
  | Except.ok (some role) => Except.ok role
  | Except.ok none => Except.error MacroError.missingRole
  | Except.error e => Except.error e

def variantFieldList : VariantFieldsAst → List FieldAst
  | VariantFieldsAst.named fs => fs
  | VariantFieldsAst.unnamed fs => fs
  | VariantFieldsAst.unit => []

/-- `SuggestionVariantData::new` (variant.rs lines 17-33): build the role
configuration of every field (named and tuple fields alike). -/
def suggestionVariantDataNew (v : VariantAst) :
    Except MacroError (List FieldRole) :=
  collectExcept fieldConfigNewFor (variantFieldList v.fields)

/-- `emit_key_enum_variant` (variant.rs lines 76-95): tuple variants are
rejected; named and unit variants are accepted. -/
def emitKeyEnumVariant (v : VariantAst) : Except MacroError Unit :=
  match v.fields with
  | VariantFieldsAst.unnamed _ => Except.error MacroError.tupleUnsupported
  | _ => Except.ok ()

/-- `GeneratedTypeConfig::apply_meta` (generated_type.rs): only a nested
`derive(...)` is accepted. -/
def generatedTypeApplyMeta (arg : InnerArg) : Except MacroError Unit :=
  match arg.name with
  | "derive" =>
    match arg with
    | InnerArg.subArg _ => Except.ok ()
    | _ => Except.error MacroError.incorrectType
  | _ => Except.error MacroError.unknownName

/-- `SuggestionEnumData::apply_meta` (suggestion_enum.rs lines 41-51): only
`key_enum(...)` and `strategy_structs(...)` are known, and each must be a
nested attribute whose inner arguments all pass `GeneratedTypeConfig`. -/
def enumApplyMeta (arg : ArgAst) : Except MacroError Unit :=
  if arg.name = "key_enum" ∨ arg.name = "strategy_structs" then
    match arg with
    | ArgAst.subArg _ inner =>
      match collectExcept generatedTypeApplyMeta inner with
      | Except.ok _ => Except.ok ()
      | Except.error e => Except.error e
    | _ => Except.error MacroError.incorrectType
  else Except.error MacroError.unknownName

/-- `SuggestionEnumData::try_from` (suggestion_enum.rs lines 20-38): apply
every enum-level `yoetz` attribute argument. -/
def suggestionEnumDataTryFrom (e : EnumAst) : Except MacroError Unit :=
  match collectExcept enumApplyMeta e.attrArgs with
  | Except.ok _ => Except.ok ()
  | Except.error err => Except.error err

/-- `impl_suggestion` (suggestion/mod.rs lines 12-36), restricted to its
fallible stages in emission order: enum-level configuration, per-variant
field configuration, then the key-enum emission (which rejects tuple
variants).  The later emission stages cannot fail once these pass: every
`config.role.unwrap()` is backed by stage 2, and the `panic!` arms for tuple
variants are unreachable past stage 3. -/
def implSuggestion (e : EnumAst) : Except MacroError Unit :=
  match suggestionEnumDataTryFrom e with
  | Except.error err => Except.error err
  | Except.ok _ =>
    match collectExcept suggestionVariantDataNew e.variants with
    | Except.error err => Except.error err
    | Except.ok _ =>
      match collectExcept emitKeyEnumVariant e.variants with
      | Except.error err => Except.error err
      | Except.ok _ => Except.ok ()

/-! ### Helper lemmas -/

theorem suggest_active_key (a : Advisor) (sc : ℚ) (s : Suggestion) :
    (a.suggest sc s).active_key = a.active_key := by
  unfold Advisor.suggest
  rcases a.top_suggestion with _ | ⟨c, s₀⟩ <;> simp
  split <;> rfl

theorem suggest_consistency_bonus (a : Advisor) (sc : ℚ) (s : Suggestion) :
    (a.suggest sc s).consistency_bonus = a.consistency_bonus := by
  unfold Advisor.suggest
  rcases a.top_suggestion with _ | ⟨c, s₀⟩ <;> simp
  split <;> rfl

theorem suggestAll_cons (a : Advisor) (c : ℚ × Suggestion)
    (calls : List (ℚ × Suggestion)) :
    suggestAll a (c :: calls) = suggestAll (a.suggest c.1 c.2) calls := rfl

theorem suggestAll_active_key (calls : List (ℚ × Suggestion)) :
    ∀ a : Advisor, (suggestAll a calls).active_key = a.active_key := by
  induction calls with
  | nil => intro a; rfl
  | cons hd tl ih =>
    intro a
    rw [suggestAll_cons, ih, suggest_active_key]

theorem suggest_of_none (a : Advisor) (sc : ℚ) (s : Suggestion)
    (h : a.top_suggestion = none) :
    a.suggest sc s = { a with top_suggestion := some (sc, s) } := by
  unfold Advisor.suggest
  rw [h]

theorem suggest_of_some_lt (a : Advisor) (c sc : ℚ) (s₀ s : Suggestion)
    (h : a.top_suggestion = some (c, s₀)) (hlt : sc + bonusFor a s < c) :
    a.suggest sc s = a := by
  unfold Advisor.suggest
  rw [h]
  simp [hlt]

theorem suggest_of_some_ge (a : Advisor) (c sc : ℚ) (s₀ s : Suggestion)
    (h : a.top_suggestion = some (c, s₀)) (hge : ¬sc + bonusFor a s < c) :
    a.suggest sc s = { a with top_suggestion := some (sc, s) } := by
  unfold Advisor.suggest
  rw [h]
  simp [hge]

theorem bonusFor_of_ne (a : Advisor) (s : Suggestion)
    (h : a.active_key ≠ some s.key) : bonusFor a s = 0 := by
  unfold bonusFor
  rcases ha : a.active_key with _ | k
  · simp
  · have : ¬k = s.key := fun hk => h (by rw [ha, hk])
    simp [this]

theorem update_advisor_pending_none (st : EntityState)
    (h : st.advisor.top_suggestion = none) :
    update_advisor st = st := by
  unfold update_advisor
  rw [h]

/-! ### C5 — idle retention -/

/-- C5: if an advisor received no `suggest` call during the cycle
(`top_suggestion` is empty when Decide runs), the Decide pass mutates
nothing at all: `active_key`, `consistency_bonus` and the attached behavior
records are unchanged and no add/remove is issued. -/
theorem idle_retention (st : EntityState)
    (h : st.advisor.top_suggestion = none) :
    update_advisor st = st :=
  update_advisor_pending_none st h

/-- Witness for `idle_retention` at a concrete state. -/
theorem idle_retention_witness :
    (({ advisor := { consistency_bonus := 2, active_key := some (0, [7]),
                     top_suggestion := none },
        records := [{ tag := 0, values := [7, 8] }] } : EntityState)).advisor.top_suggestion
        = none ∧
    update_advisor
      { advisor := { consistency_bonus := 2, active_key := some (0, [7]),
                     top_suggestion := none },
        records := [{ tag := 0, values := [7, 8] }] } =
      { advisor := { consistency_bonus := 2, active_key := some (0, [7]),
                     top_suggestion := none },
        records := [{ tag := 0, values := [7, 8] }] } :=
  ⟨rfl, idle_retention _ rfl⟩

/-! ### C9 — the pending slot is cleared by every Decide pass -/

/-- C9: after the Decide pass, `top_suggestion` is empty for every entity,
whether or not a winning suggestion existed (the winner is `take()`n out of
the slot before any reconciliation decision is made). -/
theorem decide_clears_pending (st : EntityState) :
    (update_advisor st).advisor.top_suggestion = none := by
  unfold update_advisor
  rcases h : st.advisor.top_suggestion with _ | ⟨sc, s⟩
  · exact h
  · simp only []
    rcases st.advisor.active_key with _ | k
    · rfl
    · dsimp only
      split
      · rcases update_into_components s st.records with recs | s' <;> rfl
      · rfl

/-! ### C2 — tie-breaking in `suggest` -/

/-- C2 counterexample: two calls with the same effective score (both `5`,
no bonus applies); the suggestion offered **later** is the pending winner,
not the one offered earlier as the claim states. -/
theorem tie_favors_earlier_counterexample :
    (suggestAll
        { consistency_bonus := 0, active_key := none, top_suggestion := none }
        [(5, { tag := 0, fields := [] }), (5, { tag := 1, fields := [] })]
      ).top_suggestion = some (5, { tag := 1, fields := [] }) ∧
    ({ tag := 1, fields := [] } : Suggestion) ≠ { tag := 0, fields := [] } := by
  constructor
  · rw [suggestAll_cons, suggest_of_none _ 5 _ rfl, suggestAll_cons,
        suggest_of_some_ge _ 5 5 _ _ rfl ?_]
    · rfl
    · rw [bonusFor_of_ne _ _ (by simp)]
      norm_num
  · decide

/-- C2 amended: replacement happens exactly when the incoming call's
`score + bonus` is at least the pending stored score, so on a tie the
**later** call replaces the pending suggestion (the earlier one is kept only
when the later call's effective score is strictly below the pending score). -/
theorem suggest_replacement_threshold (a : Advisor) (c sc : ℚ)
    (s₀ s : Suggestion) (h : a.top_suggestion = some (c, s₀)) :
    (sc + bonusFor a s < c → a.suggest sc s = a) ∧
    (c ≤ sc + bonusFor a s →
      a.suggest sc s = { a with top_suggestion := some (sc, s) }) ∧
    (sc + bonusFor a s = c →
      (a.suggest sc s).top_suggestion = some (sc, s)) := by
  refine ⟨fun hlt => suggest_of_some_lt a c sc s₀ s h hlt,
          fun hge => suggest_of_some_ge a c sc s₀ s h (not_lt.mpr hge),
          fun heq => ?_⟩
  rw [suggest_of_some_ge a c sc s₀ s h (by rw [heq]; exact lt_irrefl c)]

/-- Witness for `suggest_replacement_threshold`: a concrete tie at score 5
where the later call replaces the pending one. -/
theorem suggest_replacement_threshold_witness :
    ({ consistency_bonus := 0, active_key := none,
       top_suggestion := some (5, { tag := 0, fields := [] }) } : Advisor).top_suggestion
      = some (5, { tag := 0, fields := [] }) ∧
    (5 : ℚ) + bonusFor
        { consistency_bonus := 0, active_key := none,
          top_suggestion := some (5, { tag := 0, fields := [] }) }
        { tag := 1, fields := [] } = 5 ∧
    (Advisor.suggest
        { consistency_bonus := 0, active_key := none,
          top_suggestion := some (5, { tag := 0, fields := [] }) }
        5 { tag := 1, fields := [] }).top_suggestion =
      some (5, { tag := 1, fields := [] }) :=
  ⟨rfl, by norm_num [bonusFor],
   (suggest_replacement_threshold _ 5 5 _ _ rfl).2.2 (by norm_num [bonusFor])⟩

/-! ### C10 — the stored pending score is the raw score -/

/-- C10: `suggest` always stores the raw score argument (never the bonus),
and the bonus is applied only to an incoming suggestion at comparison time;
hence a pending suggestion that earned the bonus on acceptance is defended
only by its raw score: a later non-matching call whose raw score merely
reaches the pending raw score displaces it, even when the displaced
suggestion's `score + bonus` was strictly greater. -/
theorem suggest_stores_raw_score :
    (∀ (a : Advisor) (sc : ℚ) (s : Suggestion),
        (a.suggest sc s).top_suggestion = a.top_suggestion ∨
        (a.suggest sc s).top_suggestion = some (sc, s)) ∧
    (∀ (β sc₁ sc₂ : ℚ) (k : Identity) (s₁ s₂ : Suggestion),
        s₁.key = k → s₂.key ≠ k → sc₁ ≤ sc₂ → sc₂ < sc₁ + β →
        suggestAll
            { consistency_bonus := β, active_key := some k,
              top_suggestion := none }
            [(sc₁, s₁), (sc₂, s₂)] =
          { consistency_bonus := β, active_key := some k,
            top_suggestion := some (sc₂, s₂) }) := by
  constructor
  · intro a sc s
    rcases h : a.top_suggestion with _ | ⟨c, s₀⟩
    · rw [suggest_of_none a sc s h]
      exact Or.inr rfl
    · by_cases hlt : sc + bonusFor a s < c
      · rw [suggest_of_some_lt a c sc s₀ s h hlt]
        exact Or.inl h
      · rw [suggest_of_some_ge a c sc s₀ s h hlt]
        exact Or.inr rfl
  · intro β sc₁ sc₂ k s₁ s₂ hk₁ hk₂ hle _
    rw [suggestAll_cons,
        suggest_of_none _ sc₁ s₁ rfl,
        suggestAll_cons]
    rw [suggest_of_some_ge _ sc₁ sc₂ s₁ s₂ rfl ?_]
    · rfl
    · rw [bonusFor_of_ne _ s₂ (by simpa using fun h => hk₂ h.symm)]
      simpa using hle

/-- Witness for `suggest_stores_raw_score`: the suggestion matching the
active key was accepted with effective score `5 + 2`, yet a later call with
raw score `5 < 7` displaces it. -/
theorem suggest_stores_raw_score_witness :
    (Suggestion.key { tag := 0, fields := [] } = ((0, []) : Identity)) ∧
    (Suggestion.key { tag := 1, fields := [] } ≠ ((0, []) : Identity)) ∧
    ((5 : ℚ) ≤ 5) ∧ ((5 : ℚ) < 5 + 2) ∧
    suggestAll
        { consistency_bonus := 2, active_key := some (0, []),
          top_suggestion := none }
        [(5, { tag := 0, fields := [] }), (5, { tag := 1, fields := [] })] =
      { consistency_bonus := 2, active_key := some (0, []),
        top_suggestion := some (5, { tag := 1, fields := [] }) } :=
  ⟨rfl, by decide, by norm_num, by norm_num,
   suggest_stores_raw_score.2 2 5 5 (0, [])
     { tag := 0, fields := [] } { tag := 1, fields := [] }
     rfl (by decide) (by norm_num) (by norm_num)⟩

/-! ### C1 — max-with-hysteresis -/

/-- C1 counterexample: `consistency_bonus = 2`, active identity `(0, [])`.
The calls are `(10, tag 1)`, `(9, tag 0)`, `(10, tag 2)`.  The second call
has the strictly greatest `score + bonus` (`9 + 2 = 11`, against `10 + 0`
for both others), yet the suggestion held in `pending_top` at Decide is the
third call: after accepting the bonus-earning suggestion, `suggest` stores
only its raw score `9`, so the third call's `10 ≥ 9` displaces it. -/
theorem max_with_hysteresis_counterexample :
    (suggestAll
        { consistency_bonus := 2, active_key := some (0, []),
          top_suggestion := none }
        [(10, { tag := 1, fields := [] }), (9, { tag := 0, fields := [] }),
         (10, { tag := 2, fields := [] })]).top_suggestion =
      some (10, { tag := 2, fields := [] }) ∧
    (∀ p ∈ [((10 : ℚ), ({ tag := 1, fields := [] } : Suggestion)),
            (9, { tag := 0, fields := [] }), (10, { tag := 2, fields := [] })],
      p ≠ ((9 : ℚ), ({ tag := 0, fields := [] } : Suggestion)) →
      p.1 + bonusFor
          { consistency_bonus := 2, active_key := some (0, []),
            top_suggestion := none } p.2 <
        9 + bonusFor
            { consistency_bonus := 2, active_key := some (0, []),
              top_suggestion := none } { tag := 0, fields := [] }) := by
  constructor
  · rw [suggestAll_cons, suggest_of_none _ 10 _ rfl, suggestAll_cons,
        suggest_of_some_ge _ 10 9 _ _ rfl ?_, suggestAll_cons,
        suggest_of_some_ge _ 9 10 _ _ rfl ?_]
    · rfl
    · rw [bonusFor_of_ne _ _ (by decide)]
      norm_num
    · show ¬(9 : ℚ) + bonusFor _ _ < 10
      unfold bonusFor
      norm_num [Suggestion.key, keyFields]
  · intro p hp hne
    simp only [List.mem_cons, List.not_mem_nil, or_false] at hp
    rcases hp with rfl | rfl | rfl
    · norm_num [bonusFor, Suggestion.key, keyFields]
    · exact absurd rfl hne
    · norm_num [bonusFor, Suggestion.key, keyFields]

/-- Fold lemma behind the amended C1: while no call in the cycle earns the
consistency bonus, once something is pending the advisor keeps a pending
pair that (a) is the initial pending pair or one of the calls, and (b) has
a stored score at least every call's score and the initial pending score. -/
theorem suggestAll_top_no_bonus (calls : List (ℚ × Suggestion)) :
    ∀ (a : Advisor) (c : ℚ) (s₀ : Suggestion),
      (∀ p ∈ calls, a.active_key ≠ some p.2.key) →
      a.top_suggestion = some (c, s₀) →
      ∃ sc s, (suggestAll a calls).top_suggestion = some (sc, s) ∧
        ((sc, s) = (c, s₀) ∨ (sc, s) ∈ calls) ∧
        c ≤ sc ∧ ∀ p ∈ calls, p.1 ≤ sc := by
  induction calls with
  | nil =>
    intro a c s₀ _ h
    exact ⟨c, s₀, h, Or.inl rfl, le_refl c, by simp⟩
  | cons hd tl ih =>
    intro a c s₀ hb h
    have hbonus : bonusFor a hd.2 = 0 :=
      bonusFor_of_ne a hd.2 (hb hd (List.mem_cons_self hd tl))
    by_cases hc : hd.1 + bonusFor a hd.2 < c
    · rw [suggestAll_cons, suggest_of_some_lt a c hd.1 s₀ hd.2 h hc]
      obtain ⟨sc, s, h1, h2, h3, h4⟩ :=
        ih a c s₀ (fun p hp => hb p (List.mem_cons_of_mem hd hp)) h
      refine ⟨sc, s, h1, ?_, h3, ?_⟩
      · rcases h2 with h2 | h2
        · exact Or.inl h2
        · exact Or.inr (List.mem_cons_of_mem hd h2)
      · intro p hp
        rcases List.mem_cons.mp hp with rfl | hp
        · rw [hbonus] at hc
          simp only [add_zero] at hc
          exact le_trans (le_of_lt hc) h3
        · exact h4 p hp
    · rw [suggestAll_cons, suggest_of_some_ge a c hd.1 s₀ hd.2 h hc]
      have hb' : ∀ p ∈ tl,
          ({ a with top_suggestion := some (hd.1, hd.2) } : Advisor).active_key
            ≠ some p.2.key :=
        fun p hp => hb p (List.mem_cons_of_mem hd hp)
      obtain ⟨sc, s, h1, h2, h3, h4⟩ := ih _ hd.1 hd.2 hb' rfl
      have hcle : c ≤ hd.1 := by
        rw [hbonus, add_zero] at hc
        exact le_of_not_lt hc
      refine ⟨sc, s, h1, ?_, le_trans hcle h3, ?_⟩
      · rcases h2 with h2 | h2
        · exact Or.inr (h2 ▸ List.mem_cons_self hd tl)
        · exact Or.inr (List.mem_cons_of_mem hd h2)
      · intro p hp
        rcases List.mem_cons.mp hp with rfl | hp
        · exact h3
        · exact h4 p hp

/-- C1 amended: the general max-with-hysteresis property fails (see the
counterexample — the stored pending score is the raw score, so a pending
suggestion that earned the bonus is defended only by its raw score).  What
holds: when no call of the cycle matches the active identity (so every
bonus is `0`, in particular whenever `active_identity` is unset), the
suggestion pending at Decide is one of the calls and its score is the
greatest raw score of the whole sequence. -/
theorem suggest_max_without_bonus (a : Advisor)
    (calls : List (ℚ × Suggestion))
    (h0 : a.top_suggestion = none)
    (hb : ∀ p ∈ calls, a.active_key ≠ some p.2.key)
    (hne : calls ≠ []) :
    ∃ sc s, (suggestAll a calls).top_suggestion = some (sc, s) ∧
      (sc, s) ∈ calls ∧ ∀ p ∈ calls, p.1 ≤ sc := by
  cases calls with
  | nil => exact absurd rfl hne
  | cons hd tl =>
    rw [suggestAll_cons, suggest_of_none a hd.1 hd.2 h0]
    have hb' : ∀ p ∈ tl,
        ({ a with top_suggestion := some (hd.1, hd.2) } : Advisor).active_key
          ≠ some p.2.key :=
      fun p hp => hb p (List.mem_cons_of_mem hd hp)
    obtain ⟨sc, s, h1, h2, h3, h4⟩ := suggestAll_top_no_bonus tl
      { a with top_suggestion := some (hd.1, hd.2) } hd.1 hd.2 hb' rfl
    refine ⟨sc, s, h1, ?_, ?_⟩
    · rcases h2 with h2 | h2
      · exact h2 ▸ List.mem_cons_self hd tl
      · exact List.mem_cons_of_mem hd h2
    · intro p hp
      rcases List.mem_cons.mp hp with rfl | hp
      · exact h3
      · exact h4 p hp

/-- Witness for `suggest_max_without_bonus`: no active identity, calls with
scores 3 and 7; the pending winner is the call with score 7. -/
theorem suggest_max_without_bonus_witness :
    (({ consistency_bonus := 2, active_key := none,
        top_suggestion := none } : Advisor).top_suggestion = none) ∧
    (∀ p ∈ [((3 : ℚ), ({ tag := 0, fields := [] } : Suggestion)),
            (7, { tag := 1, fields := [] })],
      ({ consistency_bonus := 2, active_key := none,
         top_suggestion := none } : Advisor).active_key ≠ some p.2.key) ∧
    ([((3 : ℚ), ({ tag := 0, fields := [] } : Suggestion)),
      (7, { tag := 1, fields := [] })] ≠ []) ∧
    ∃ sc s,
      (suggestAll
          { consistency_bonus := 2, active_key := none,
            top_suggestion := none }
          [(3, { tag := 0, fields := [] }),
           (7, { tag := 1, fields := [] })]).top_suggestion = some (sc, s) ∧
      (sc, s) ∈ [((3 : ℚ), ({ tag := 0, fields := [] } : Suggestion)),
                 (7, { tag := 1, fields := [] })] ∧
      ∀ p ∈ [((3 : ℚ), ({ tag := 0, fields := [] } : Suggestion)),
             (7, { tag := 1, fields := [] })], p.1 ≤ sc :=
  ⟨rfl, by decide, by decide,
   suggest_max_without_bonus _ _ rfl (by decide) (by decide)⟩

/-! ### Case lemmas for the Decide pass -/

theorem update_advisor_no_active (st : EntityState) (sc : ℚ) (s : Suggestion)
    (hpend : st.advisor.top_suggestion = some (sc, s))
    (hact : st.advisor.active_key = none) :
    update_advisor st =
      { advisor := { st.advisor with
                       top_suggestion := none,
                       active_key := some s.key },
        records := add_components s st.records } := by
  unfold update_advisor
  rw [hpend]
  simp only [hact]

theorem update_advisor_patch_ok (st : EntityState) (sc : ℚ) (s : Suggestion)
    (k : Identity) (recs : List Record)
    (hpend : st.advisor.top_suggestion = some (sc, s))
    (hact : st.advisor.active_key = some k) (hkey : k = s.key)
    (hok : update_into_components s st.records = Except.ok recs) :
    update_advisor st =
      { advisor := { st.advisor with top_suggestion := none },
        records := recs } := by
  unfold update_advisor
  rw [hpend]
  simp [hact, hkey, hok]

theorem update_advisor_patch_err (st : EntityState) (sc : ℚ) (s : Suggestion)
    (k : Identity) (s' : Suggestion)
    (hpend : st.advisor.top_suggestion = some (sc, s))
    (hact : st.advisor.active_key = some k) (hkey : k = s.key)
    (herr : update_into_components s st.records = Except.error s') :
    update_advisor st =
      { advisor := { st.advisor with
                       top_suggestion := none,
                       active_key := some s.key },
        records := add_components s' (remove_components k st.records) } := by
  unfold update_advisor
  rw [hpend]
  simp [hact, hkey, herr]

theorem update_advisor_switch (st : EntityState) (sc : ℚ) (s : Suggestion)
    (k : Identity)
    (hpend : st.advisor.top_suggestion = some (sc, s))
    (hact : st.advisor.active_key = some k) (hkey : k ≠ s.key) :
    update_advisor st =
      { advisor := { st.advisor with
                       top_suggestion := none,
                       active_key := some s.key },
        records := add_components s (remove_components k st.records) } := by
  unfold update_advisor
  rw [hpend]
  simp only [hact, if_neg hkey]

theorem update_into_components_error (s s' : Suggestion) (recs : List Record)
    (h : update_into_components s recs = Except.error s') : s' = s := by
  unfold update_into_components at h
  split at h
  · exact Except.noConfusion h
  · exact (Except.error.inj h).symm

theorem update_into_components_ok (s : Suggestion) (recs recs' : List Record)
    (h : update_into_components s recs = Except.ok recs') :
    recs' = recs.map (fun r =>
      if r.tag == s.tag then
        { tag := r.tag, values := patchValues r.values s.fields }
      else r) := by
  unfold update_into_components at h
  split at h
  · exact (Except.ok.inj h).symm
  · exact Except.noConfusion h

/-! ### C3 — Decide-pass reconciliation -/

/-- C3: whenever a pending suggestion exists, the Decide pass (a) with no
active identity calls `add` and activates the winner's identity; (b) with an
active identity equal to the winner's attempts patch-in-place and on success
changes nothing else; (c) on a different identity, or a failed patch, calls
`remove` with the old identity, then `add` with the winning suggestion, then
activates the new identity. -/
theorem decide_reconciliation (st : EntityState) (sc : ℚ) (s : Suggestion)
    (hpend : st.advisor.top_suggestion = some (sc, s)) :
    (st.advisor.active_key = none →
      update_advisor st =
        { advisor := { st.advisor with
                         top_suggestion := none,
                         active_key := some s.key },
          records := add_components s st.records }) ∧
    (∀ k, st.advisor.active_key = some k → k = s.key →
      (∀ recs, update_into_components s st.records = Except.ok recs →
        update_advisor st =
          { advisor := { st.advisor with top_suggestion := none },
            records := recs }) ∧
      (∀ s', update_into_components s st.records = Except.error s' →
        update_advisor st =
          { advisor := { st.advisor with
                           top_suggestion := none,
                           active_key := some s.key },
            records :=
              add_components s' (remove_components k st.records) })) ∧
    (∀ k, st.advisor.active_key = some k → k ≠ s.key →
      update_advisor st =
        { advisor := { st.advisor with
                         top_suggestion := none,
                         active_key := some s.key },
          records := add_components s (remove_components k st.records) }) := by
  exact ⟨fun hnone => update_advisor_no_active st sc s hpend hnone,
         fun k hk hkey =>
           ⟨fun recs hok => update_advisor_patch_ok st sc s k recs hpend hk hkey hok,
            fun s' herr => update_advisor_patch_err st sc s k s' hpend hk hkey herr⟩,
         fun k hk hkey => update_advisor_switch st sc s k hpend hk hkey⟩

/-- Witness for `decide_reconciliation`: a pending suggestion with no active
identity — Decide attaches the record and activates the winner's key. -/
theorem decide_reconciliation_witness :
    (({ advisor := { consistency_bonus := 2, active_key := none,
                     top_suggestion :=
                       some (5, { tag := 0,
                                  fields := [(FieldRole.key, 4)] }) },
        records := [] } : EntityState)).advisor.top_suggestion =
      some (5, { tag := 0, fields := [(FieldRole.key, 4)] }) ∧
    (({ advisor := { consistency_bonus := 2, active_key := none,
                     top_suggestion :=
                       some (5, { tag := 0,
                                  fields := [(FieldRole.key, 4)] }) },
        records := [] } : EntityState)).advisor.active_key = none ∧
    update_advisor
        { advisor := { consistency_bonus := 2, active_key := none,
                       top_suggestion :=
                         some (5, { tag := 0,
                                    fields := [(FieldRole.key, 4)] }) },
          records := [] } =
      { advisor := { consistency_bonus := 2, active_key := some (0, [4]),
                     top_suggestion := none },
        records := [{ tag := 0, values := [4] }] } :=
  ⟨rfl, rfl, by
    have h := (decide_reconciliation
      { advisor := { consistency_bonus := 2, active_key := none,
                     top_suggestion :=
                       some (5, { tag := 0, fields := [(FieldRole.key, 4)] }) },
        records := [] }
      5 { tag := 0, fields := [(FieldRole.key, 4)] } rfl).1 rfl
    rw [h]
    rfl⟩

/-! ### C7 — identity projection and round-trip -/

theorem keyFields_eq_filter (l : List (FieldRole × Value)) :
    keyFields l = (l.filter (fun f => f.1 == FieldRole.key)).map Prod.snd := by
  induction l with
  | nil => rfl
  | cons hd tl ih =>
    rcases hd with ⟨role, v⟩
    by_cases h : role = FieldRole.key
    · simp [keyFields, h, ih]
    · simp [keyFields, h, ih]

/-- C7: the generated `key` method is the tag-preserving projection onto the
`key`-role fields (same variant tag; exactly the `key` fields, in declaration
order); and reconstructing a suggestion from the record `add_components`
attaches (same tag, all field values, paired back with the variant's roles)
then deriving its identity gives the identity of the original suggestion. -/
theorem key_projection_round_trip (s : Suggestion) :
    (s.key.1 = s.tag ∧
     s.key.2 = (s.fields.filter (fun f => f.1 == FieldRole.key)).map Prod.snd) ∧
    Suggestion.key
        { tag := s.record.tag,
          fields := (s.fields.map Prod.fst).zip s.record.values } = s.key := by
  refine ⟨⟨rfl, keyFields_eq_filter s.fields⟩, ?_⟩
  show Suggestion.key
      { tag := s.tag,
        fields := (s.fields.map Prod.fst).zip (s.fields.map Prod.snd) } = s.key
  rw [List.zip_map']
  simp [Suggestion.key]

/-! ### C4 — patch-in-place contract -/

theorem patchValues_length (rv : List Value) (sf : List (FieldRole × Value)) :
    (patchValues rv sf).length = min rv.length sf.length :=
  List.length_zipWith _ rv sf

theorem patchValues_get (rv : List Value) :
    ∀ (sf : List (FieldRole × Value)) (j : Nat) (role : FieldRole)
      (v old : Value),
      sf[j]? = some (role, v) → rv[j]? = some old →
      (patchValues rv sf)[j]? =
        some (if role = FieldRole.input then v else old) := by
  induction rv with
  | nil => intro sf j role v old _ hold; simp at hold
  | cons o rest ih =>
    intro sf j role v old hsf hold
    cases sf with
    | nil => simp at hsf
    | cons f fs =>
      cases j with
      | zero =>
        simp only [List.getElem?_cons_zero, Option.some.injEq] at hsf hold
        subst hold
        subst hsf
        simp [patchValues]
      | succ j =>
        simp only [List.getElem?_cons_succ] at hsf hold
        simpa [patchValues] using ih fs j role v old hsf hold

/-- C4: `update_into_components` succeeds iff the accessor slot of the
suggestion's variant is populated.  On success it returns the record set
where records of other variants are untouched, and the record of the
suggestion's variant keeps its tag, keeps its `key`- and `state`-role field
values, and takes the suggestion's values at exactly the `input`-role
positions.  If the slot is empty it returns the suggestion back unchanged as
the error; the engine recovers that failure by falling back to remove+add
(never propagating it). -/
theorem patch_in_place_contract (s : Suggestion) (recs : List Record)
    (hlen : ∀ r ∈ recs, r.tag = s.tag → r.values.length = s.fields.length) :
    ((∀ r ∈ recs, r.tag ≠ s.tag) →
      update_into_components s recs = Except.error s) ∧
    ((∃ r ∈ recs, r.tag = s.tag) →
      ∃ recs', update_into_components s recs = Except.ok recs' ∧
        recs'.length = recs.length ∧
        ∀ (i : Nat) (r : Record), recs[i]? = some r →
          (r.tag ≠ s.tag → recs'[i]? = some r) ∧
          (r.tag = s.tag →
            ∃ vals, recs'[i]? = some { tag := r.tag, values := vals } ∧
              vals.length = r.values.length ∧
              ∀ (j : Nat) (role : FieldRole) (v old : Value),
                s.fields[j]? = some (role, v) → r.values[j]? = some old →
                vals[j]? =
                  some (if role = FieldRole.input then v else old))) ∧
    (∀ (st : EntityState) (sc : ℚ) (k : Identity),
      st.advisor.top_suggestion = some (sc, s) →
      st.advisor.active_key = some k → k = s.key →
      st.records = recs → (∀ r ∈ recs, r.tag ≠ s.tag) →
      update_advisor st =
        { advisor := { st.advisor with
                         top_suggestion := none,
                         active_key := some s.key },
          records := add_components s (remove_components k recs) }) := by
  have herr : (∀ r ∈ recs, r.tag ≠ s.tag) →
      update_into_components s recs = Except.error s := by
    intro hno
    unfold update_into_components
    rw [if_neg]
    simp only [List.any_eq_true, beq_iff_eq, not_exists, not_and]
    exact fun r hr => hno r hr
  refine ⟨herr, fun hyes => ?_, fun st sc k hpend hact hkey hrecs hno => ?_⟩
  · refine ⟨recs.map (fun r =>
        if r.tag == s.tag then
          { tag := r.tag, values := patchValues r.values s.fields }
        else r), ?_, List.length_map _ _, ?_⟩
    · unfold update_into_components
      rw [if_pos]
      simp only [List.any_eq_true, beq_iff_eq]
      obtain ⟨r, hr, htag⟩ := hyes
      exact ⟨r, hr, htag⟩
    · intro i r hi
      have hmap : (recs.map (fun r =>
          if r.tag == s.tag then
            { tag := r.tag, values := patchValues r.values s.fields }
          else r))[i]? = some (if r.tag == s.tag then
            { tag := r.tag, values := patchValues r.values s.fields }
          else r) := by
        rw [List.getElem?_map, hi]
        rfl
      constructor
      · intro hne
        rw [hmap]
        simp [hne]
      · intro htag
        refine ⟨patchValues r.values s.fields, ?_, ?_, ?_⟩
        · rw [hmap]
          simp [htag]
        · rw [patchValues_length, hlen r (List.getElem?_mem hi) htag]
          exact Nat.min_self _
        · exact fun j role v old h1 h2 => patchValues_get r.values s.fields j role v old h1 h2
  · subst hrecs
    exact update_advisor_patch_err st sc s k s hpend hact hkey (herr hno)

/-- Witness for `patch_in_place_contract`: an empty accessor slot — patching
returns the suggestion back unchanged as the error value. -/
theorem patch_in_place_contract_witness :
    (∀ r ∈ [({ tag := 1, values := [9] } : Record)],
        r.tag = Suggestion.tag { tag := 0, fields := [(FieldRole.input, 2)] } →
        r.values.length = 1) ∧
    (∀ r ∈ [({ tag := 1, values := [9] } : Record)], r.tag ≠ 0) ∧
    update_into_components { tag := 0, fields := [(FieldRole.input, 2)] }
        [{ tag := 1, values := [9] }] =
      Except.error { tag := 0, fields := [(FieldRole.input, 2)] } :=
  ⟨by decide, by decide,
   (patch_in_place_contract { tag := 0, fields := [(FieldRole.input, 2)] }
      [{ tag := 1, values := [9] }] (by decide)).1 (by decide)⟩

/-! ### C8 — single-record invariant -/

theorem filter_tag_eq_nil (t : Nat) (l : List Record)
    (h : ∀ r ∈ l, r.tag = t) : l.filter (fun r => r.tag ≠ t) = [] := by
  induction l with
  | nil => rfl
  | cons hd tl ih =>
    have h1 : hd.tag = t := h hd (List.mem_cons_self hd tl)
    rw [List.filter_cons, if_neg (by simp [h1])]
    exact ih (fun r hr => h r (List.mem_cons_of_mem hd hr))

theorem remove_components_eq_nil (k : Identity) (l : List Record)
    (h : ∀ r ∈ l, r.tag = k.1) : remove_components k l = [] :=
  filter_tag_eq_nil k.1 l h

/-- A state holding exactly the freshly added record of `s`, with `s.key`
active, satisfies the single-record invariant. -/
theorem singleRecord_of_fresh (st' : EntityState) (s : Suggestion)
    (ha : st'.advisor.active_key = some s.key)
    (hr : st'.records = add_components s []) : SingleRecord st' := by
  refine ⟨?_, ?_, ?_⟩
  · rw [hr]
    simp [add_components]
  · intro h0
    rw [ha] at h0
    cases h0
  · intro k hk r hrr
    rw [ha] at hk
    rw [hr] at hrr
    simp only [add_components, List.filter_nil, List.nil_append,
      List.mem_singleton] at hrr
    have hk' : k = s.key := (Option.some.inj hk).symm
    subst hk'
    subst hrr
    rfl

theorem update_advisor_single_record (st : EntityState)
    (h : SingleRecord st) : SingleRecord (update_advisor st) := by
  obtain ⟨hlen, hnone, htag⟩ := h
  rcases hpend : st.advisor.top_suggestion with _ | ⟨sc, s⟩
  · rw [update_advisor_pending_none st hpend]
    exact ⟨hlen, hnone, htag⟩
  · rcases hact : st.advisor.active_key with _ | k
    · have hrec : st.records = [] := hnone hact
      rw [update_advisor_no_active st sc s hpend hact]
      exact singleRecord_of_fresh _ s rfl (by rw [hrec])
    · by_cases hkey : k = s.key
      · cases hupd : update_into_components s st.records with
        | ok recs =>
          rw [update_advisor_patch_ok st sc s k recs hpend hact hkey hupd]
          have hmap := update_into_components_ok s st.records recs hupd
          subst hmap
          refine ⟨by simpa using hlen, ?_, ?_⟩
          · intro habs
            rw [hact] at habs
            cases habs
          · intro k' hk' r hr
            rw [hact] at hk'
            have hk'' : k' = k := (Option.some.inj hk').symm
            subst hk''
            simp only [List.mem_map] at hr
            obtain ⟨r₀, hr₀, rfl⟩ := hr
            have ht := htag k' hact r₀ hr₀
            have htg : (if (r₀.tag == s.tag) = true then
                ({ tag := r₀.tag, values := patchValues r₀.values s.fields } : Record)
              else r₀).tag = r₀.tag := by
              split <;> rfl
            rw [htg]
            exact ht
        | error s' =>
          have hs' : s' = s := update_into_components_error s s' st.records hupd
          rw [hs'] at hupd
          rw [update_advisor_patch_err st sc s k s hpend hact hkey hupd]
          have hrm : remove_components k st.records = [] :=
            remove_components_eq_nil k st.records (htag k hact)
          exact singleRecord_of_fresh _ s rfl (by rw [hrm])
      · rw [update_advisor_switch st sc s k hpend hact hkey]
        have hrm : remove_components k st.records = [] :=
          remove_components_eq_nil k st.records (htag k hact)
        exact singleRecord_of_fresh _ s rfl (by rw [hrm])

/-- C8: starting from an advisor with no active identity and no attached
record, every state reachable through cycles of `suggest` calls followed by
the Decide pass (with its remove/add/patch operations) has at most one
behavior record attached; its variant tag equals the active identity's tag
whenever one is set, and no record is attached while the identity is unset. -/
theorem single_record_invariant (β : ℚ)
    (cycles : List (List (ℚ × Suggestion))) :
    SingleRecord (runCycles { advisor := Advisor.new β, records := [] } cycles) := by
  have base : SingleRecord { advisor := Advisor.new β, records := [] } :=
    ⟨by simp, fun _ => rfl, fun k hk => by cases hk⟩
  have step : ∀ (cs : List (List (ℚ × Suggestion))) (st : EntityState),
      SingleRecord st → SingleRecord (runCycles st cs) := by
    intro cs
    induction cs with
    | nil => intro st h; exact h
    | cons c rest ih =>
      intro st h
      obtain ⟨x1, x2, x3⟩ := h
      have h1 : SingleRecord
          { advisor := suggestAll st.advisor c, records := st.records } := by
        refine ⟨x1, ?_, ?_⟩
        · intro h0
          rw [show ({ advisor := suggestAll st.advisor c,
                      records := st.records } : EntityState).advisor.active_key =
              st.advisor.active_key from suggestAll_active_key c st.advisor] at h0
          exact x2 h0
        · intro k hk
          rw [show ({ advisor := suggestAll st.advisor c,
                      records := st.records } : EntityState).advisor.active_key =
              st.advisor.active_key from suggestAll_active_key c st.advisor] at hk
          exact x3 k hk
      exact ih _ (update_advisor_single_record _ h1)
  exact step cycles _ base

/-! ### C6 — schema validation -/

theorem roleOfName_roleNameStr (r : FieldRole) :
    roleOfName (roleNameStr r) = some r := by
  cases r <;> simp [roleOfName, roleNameStr]

theorem roleOfName_eq_some (n : String) (r : FieldRole)
    (h : roleOfName n = some r) : n = roleNameStr r := by
  unfold roleOfName at h
  split_ifs at h with h1 h2 h3
  · cases Option.some.inj h
    exact h1
  · cases Option.some.inj h
    exact h2
  · cases Option.some.inj h
    exact h3

theorem fieldApplyMeta_some_err (r : FieldRole) (a : ArgAst) :
    ∃ err, fieldApplyMeta (some r) a = Except.error err := by
  unfold fieldApplyMeta
  rcases h : roleOfName a.name with _ | role
  · exact ⟨MacroError.unknownName, rfl⟩
  · cases a with
    | flag n => exact ⟨MacroError.roleGivenTwice, by simp⟩
    | keyValue n => exact ⟨MacroError.incorrectType, rfl⟩
    | subArg n args => exact ⟨MacroError.incorrectType, rfl⟩
    | notArg n => exact ⟨MacroError.incorrectType, rfl⟩

theorem fieldConfigFold_some_ok (r : FieldRole) (l : List ArgAst)
    (res : Option FieldRole)
    (h : fieldConfigFold (some r) l = Except.ok res) :
    l = [] ∧ res = some r := by
  cases l with
  | nil => exact ⟨rfl, (Except.ok.inj h).symm⟩
  | cons a rest =>
    obtain ⟨err, herr⟩ := fieldApplyMeta_some_err r a
    unfold fieldConfigFold at h
    rw [herr] at h
    exact Except.noConfusion h

theorem fieldConfigNewFor_ok (f : FieldAst) (r : FieldRole)
    (h : fieldConfigNewFor f = Except.ok r) :
    f.args = [ArgAst.flag (roleNameStr r)] := by
  unfold fieldConfigNewFor at h
  cases hargs : f.args with
  | nil =>
    rw [hargs] at h
    exact Except.noConfusion h
  | cons a rest =>
    rw [hargs] at h
    cases hfold : fieldConfigFold none (a :: rest) with
    | error e1 =>
      rw [hfold] at h
      exact Except.noConfusion h
    | ok res =>
      rw [hfold] at h
      unfold fieldConfigFold at hfold
      cases happ : fieldApplyMeta none a with
      | error e2 =>
        rw [happ] at hfold
        exact Except.noConfusion hfold
      | ok cfg =>
        rw [happ] at hfold
        unfold fieldApplyMeta at happ
        rcases hrole : roleOfName a.name with _ | role
        · rw [hrole] at happ
          exact Except.noConfusion happ
        · rw [hrole] at happ
          cases a with
          | flag n =>
            have hc : some role = cfg :=
              Except.ok.inj (show Except.ok (some role) = Except.ok cfg from happ)
            subst hc
            have hfold' : fieldConfigFold (some role) rest = Except.ok res :=
              hfold
            obtain ⟨hrest, hres⟩ := fieldConfigFold_some_ok role rest res hfold'
            subst hrest
            subst hres
            have h' : Except.ok role = Except.ok r := h
            have hr : role = r := Except.ok.inj h'
            subst hr
            have hn : n = roleNameStr role := roleOfName_eq_some _ _ hrole
            rw [hn]
          | keyValue n => exact Except.noConfusion happ
          | subArg n args => exact Except.noConfusion happ
          | notArg n => exact Except.noConfusion happ

theorem collectExcept_ok (g : α → Except ε β) (l : List α)
    (h : ∃ out, collectExcept g l = Except.ok out) :
    ∀ x ∈ l, ∃ y, g x = Except.ok y := by
  induction l with
  | nil => intro x hx; cases hx
  | cons a rest ih =>
    obtain ⟨out, hout⟩ := h
    intro x hx
    unfold collectExcept at hout
    cases hga : g a with
    | error e1 =>
      rw [hga] at hout
      exact Except.noConfusion hout
    | ok y =>
      rw [hga] at hout
      cases hrest : collectExcept g rest with
      | error e2 =>
        rw [hrest] at hout
        exact Except.noConfusion hout
      | ok ys =>
        rcases List.mem_cons.mp hx with rfl | hx'
        · exact ⟨y, hga⟩
        · exact ih ⟨ys, hrest⟩ x hx'

theorem exceptFailed_of_ne_ok (r : Except ε Unit) (h : r ≠ Except.ok ()) :
    exceptFailed r = true := by
  cases r with
  | error e => rfl
  | ok u => cases u; exact absurd rfl h

theorem implSuggestion_ok_stages (e : EnumAst)
    (h : implSuggestion e = Except.ok ()) :
    (∃ u, suggestionEnumDataTryFrom e = Except.ok u) ∧
    (∃ rs, collectExcept suggestionVariantDataNew e.variants = Except.ok rs) ∧
    (∃ us, collectExcept emitKeyEnumVariant e.variants = Except.ok us) := by
  unfold implSuggestion at h
  cases h1 : suggestionEnumDataTryFrom e with
  | error e1 => rw [h1] at h; exact Except.noConfusion h
  | ok u1 =>
    rw [h1] at h
    cases h2 : collectExcept suggestionVariantDataNew e.variants with
    | error e2 => rw [h2] at h; exact Except.noConfusion h
    | ok rs =>
      rw [h2] at h
      cases h3 : collectExcept emitKeyEnumVariant e.variants with
      | error e3 => rw [h3] at h; exact Except.noConfusion h
      | ok us => exact ⟨⟨u1, rfl⟩, ⟨rs, rfl⟩, ⟨us, rfl⟩⟩

theorem tryFrom_ok (e : EnumAst) (u : Unit)
    (h : suggestionEnumDataTryFrom e = Except.ok u) :
    ∃ out, collectExcept enumApplyMeta e.attrArgs = Except.ok out := by
  unfold suggestionEnumDataTryFrom at h
  cases h1 : collectExcept enumApplyMeta e.attrArgs with
  | error e1 => rw [h1] at h; exact Except.noConfusion h
  | ok out => exact ⟨out, rfl⟩

theorem enumApplyMeta_unknown (a : ArgAst) (h1 : a.name ≠ "key_enum")
    (h2 : a.name ≠ "strategy_structs") :
    enumApplyMeta a = Except.error MacroError.unknownName := by
  unfold enumApplyMeta
  rw [if_neg (by simp [h1, h2])]

theorem emitKeyEnumVariant_unnamed (v : VariantAst) (fs : List FieldAst)
    (hfs : v.fields = VariantFieldsAst.unnamed fs) :
    emitKeyEnumVariant v = Except.error MacroError.tupleUnsupported := by
  unfold emitKeyEnumVariant
  rw [hfs]

/-- C6: the schema compiler aborts with an error when any variant field
carries no role tag, when a field's role is given more than once (two
role-named arguments), when a variant has positional (unnamed) fields, or
when an unknown configuration key appears on the enum; and when compilation
succeeds, every variant is named or unit and every field carries exactly one
role argument — a single bare `key`/`input`/`state` flag. -/
theorem schema_validation (e : EnumAst) :
    ((∃ v ∈ e.variants, ∃ f ∈ variantFieldList v.fields,
        ∀ a ∈ f.args, roleOfName a.name = none) →
      exceptFailed (implSuggestion e) = true) ∧
    ((∃ v ∈ e.variants, ∃ f ∈ variantFieldList v.fields,
        2 ≤ (f.args.filter (fun a => (roleOfName a.name).isSome)).length) →
      exceptFailed (implSuggestion e) = true) ∧
    ((∃ v ∈ e.variants, ∃ fs, v.fields = VariantFieldsAst.unnamed fs) →
      exceptFailed (implSuggestion e) = true) ∧
    ((∃ a ∈ e.attrArgs, a.name ≠ "key_enum" ∧ a.name ≠ "strategy_structs") →
      exceptFailed (implSuggestion e) = true) ∧
    (implSuggestion e = Except.ok () →
      (∀ v ∈ e.variants, ¬∃ fs, v.fields = VariantFieldsAst.unnamed fs) ∧
      (∀ v ∈ e.variants, ∀ f ∈ variantFieldList v.fields,
        ∃ r, f.args = [ArgAst.flag (roleNameStr r)])) := by
  have hfields : implSuggestion e = Except.ok () →
      ∀ v ∈ e.variants, ∀ f ∈ variantFieldList v.fields,
        ∃ r, fieldConfigNewFor f = Except.ok r := by
    intro hok v hv f hf
    obtain ⟨_, ⟨rs, h2⟩, _⟩ := implSuggestion_ok_stages e hok
    obtain ⟨roles, hv'⟩ :=
      collectExcept_ok suggestionVariantDataNew e.variants ⟨rs, h2⟩ v hv
    unfold suggestionVariantDataNew at hv'
    exact collectExcept_ok fieldConfigNewFor (variantFieldList v.fields)
      ⟨roles, hv'⟩ f hf
  have hnotuple : implSuggestion e = Except.ok () →
      ∀ v ∈ e.variants, ¬∃ fs, v.fields = VariantFieldsAst.unnamed fs := by
    intro hok v hv hfs
    obtain ⟨fs, hfs⟩ := hfs
    obtain ⟨_, _, ⟨us, h3⟩⟩ := implSuggestion_ok_stages e hok
    obtain ⟨u, hu⟩ := collectExcept_ok emitKeyEnumVariant e.variants ⟨us, h3⟩ v hv
    rw [emitKeyEnumVariant_unnamed v fs hfs] at hu
    exact Except.noConfusion hu
  refine ⟨?_, ?_, ?_, ?_, fun hok => ⟨hnotuple hok, ?_⟩⟩
  · rintro ⟨v, hv, f, hf, hnone⟩
    apply exceptFailed_of_ne_ok
    intro hok
    obtain ⟨r, hr⟩ := hfields hok v hv f hf
    have hargs := fieldConfigNewFor_ok f r hr
    have hmem : ArgAst.flag (roleNameStr r) ∈ f.args := by
      rw [hargs]
      exact List.mem_singleton_self _
    have hcontra := hnone _ hmem
    rw [show (ArgAst.flag (roleNameStr r)).name = roleNameStr r from rfl,
        roleOfName_roleNameStr] at hcontra
    exact Option.noConfusion hcontra
  · rintro ⟨v, hv, f, hf, htwo⟩
    apply exceptFailed_of_ne_ok
    intro hok
    obtain ⟨r, hr⟩ := hfields hok v hv f hf
    have hargs := fieldConfigNewFor_ok f r hr
    rw [hargs] at htwo
    have hle : (([ArgAst.flag (roleNameStr r)] : List ArgAst).filter
        (fun a => (roleOfName a.name).isSome)).length ≤ 1 :=
      le_trans (List.length_filter_le _ _) (by simp)
    omega
  · rintro ⟨v, hv, fs, hfs⟩
    apply exceptFailed_of_ne_ok
    intro hok
    exact hnotuple hok v hv ⟨fs, hfs⟩
  · rintro ⟨a, ha, h1, h2⟩
    apply exceptFailed_of_ne_ok
    intro hok
    obtain ⟨⟨u, hu⟩, _, _⟩ := implSuggestion_ok_stages e hok
    obtain ⟨out, hout⟩ := tryFrom_ok e u hu
    obtain ⟨y, hy⟩ := collectExcept_ok enumApplyMeta e.attrArgs ⟨out, hout⟩ a ha
    rw [enumApplyMeta_unknown a h1 h2] at hy
    exact Except.noConfusion hy
  · intro v hv f hf
    obtain ⟨r, hr⟩ := hfields hok v hv f hf
    exact ⟨r, fieldConfigNewFor_ok f r hr⟩

/-- Witness for `schema_validation`: concrete schemas triggering each abort
condition (untagged field; twice-given role; tuple variant; unknown enum
configuration key) and a well-formed schema whose fields all carry exactly
one role flag. -/
theorem schema_validation_witness :
    exceptFailed (implSuggestion
      (EnumAst.mk []
        [VariantAst.mk (VariantFieldsAst.named [FieldAst.mk []])])) = true ∧
    exceptFailed (implSuggestion
      (EnumAst.mk []
        [VariantAst.mk (VariantFieldsAst.named
          [FieldAst.mk [ArgAst.flag "key", ArgAst.flag "state"]])])) = true ∧
    exceptFailed (implSuggestion
      (EnumAst.mk []
        [VariantAst.mk (VariantFieldsAst.unnamed
          [FieldAst.mk [ArgAst.flag "key"]])])) = true ∧
    exceptFailed (implSuggestion
      (EnumAst.mk [ArgAst.flag "derive"] [])) = true ∧
    (∀ v ∈ [VariantAst.mk (VariantFieldsAst.named
              [FieldAst.mk [ArgAst.flag "input"]]),
            VariantAst.mk VariantFieldsAst.unit],
      ∀ f ∈ variantFieldList v.fields,
        ∃ r, f.args = [ArgAst.flag (roleNameStr r)]) :=
  ⟨(schema_validation _).1 (by decide),
   (schema_validation _).2.1 (by decide),
   (schema_validation _).2.2.1
     ⟨VariantAst.mk (VariantFieldsAst.unnamed [FieldAst.mk [ArgAst.flag "key"]]),
      List.mem_singleton_self _,
      [FieldAst.mk [ArgAst.flag "key"]], rfl⟩,
   (schema_validation _).2.2.2.1 (by decide),
   ((schema_validation
      (EnumAst.mk []
        [VariantAst.mk (VariantFieldsAst.named
          [FieldAst.mk [ArgAst.flag "input"]]),
         VariantAst.mk VariantFieldsAst.unit])).2.2.2.2 rfl).2⟩

end Yoetz
